import Mathlib

/-!
Shallow embedding of `src/aboutsettings.cpp` from
nemo-qml-plugin-systemsettings.

The file embeds the two pieces of real logic of the module:

* `parseReleaseFile` — the shell-assignment-style key/value parser for
  release files (os-release format), working line by line;
* `AboutSettings::diskUsageModel` — the mount-table-driven disk usage
  aggregator.

Strings are modelled as `List Char` for the parser (QString positions and
per-character scans) and as `String` for mountpoint paths.  File I/O is
modelled by passing the file contents as an `Option` — `none` models a file
that does not exist / cannot be opened.  The external `QStorageInfo`
provider is modelled as a pair of functions `String → Int`.
-/

/-! ### QString primitives used by the parser -/

/-- The single-quote character (0x27), one of the two quote characters the
parser recognises (`value.at(0) == '\''` in the source). -/
def singleQuote : Char := Char.ofNat 39

/-- Whitespace as removed by `QString::trimmed()`: space and the ASCII
control characters `\t`, `\n`, `\v`, `\f`, `\r` (QChar::isSpace; the
Unicode separator categories it also covers play no role here). -/
def isQtSpace (c : Char) : Bool :=
  c = ' ' || c = '\t' || c = '\n' || c = '\x0b' || c = '\x0c' || c = '\r'

/-- `QString::trimmed()`: removes whitespace from both ends of the string. -/
def qtrim (s : List Char) : List Char :=
  ((s.dropWhile isQtSpace).reverse.dropWhile isQtSpace).reverse

/-- `QString::at(i)`.  QString data is NUL-terminated; in release builds an
access one past the end (the only out-of-range access the parser can make,
`value.at(0)` on an empty value) reads the terminator and yields `QChar(0)`.
We model the out-of-range read as the NUL character. -/
def qCharAt (s : List Char) (i : Nat) : Char := s.getD i '\x00'

/-- `line.section('=', 0, 0)`: everything before the first `=`; the whole
line when it contains no `=`. -/
def keySection : List Char → List Char
  | [] => []
  | c :: rest => if c = '=' then [] else c :: keySection rest

/-- `line.section('=', 1)`: everything after the first `=` (it may itself
contain further `=`); empty when the line contains no `=`. -/
def valueSection : List Char → List Char
  | [] => []
  | c :: rest => if c = '=' then rest else valueSection rest

/-- `line.startsWith('#')`. -/
def startsWithHash : List Char → Bool
  | [] => false
  | c :: _ => c = '#'

/-! ### The key pattern -/

/-- A character of the class `[a-zA-Z_]` (`Char.isAlpha` is the ASCII
letter test). -/
def isWordStart (c : Char) : Bool := c.isAlpha || c = '_'

/-- A character of the class `[a-zA-Z0-9_]`. -/
def isWordChar (c : Char) : Bool := c.isAlphanum || c = '_'

/-- `QRegExp("[a-zA-Z_]+[a-zA-Z0-9_]*").exactMatch(key)`.  Because
`[a-zA-Z_] ⊆ [a-zA-Z0-9_]`, the language of the regex is exactly: the key
is nonempty, its first character is in `[a-zA-Z_]` and every later
character is in `[a-zA-Z0-9_]` (see `keyRegexMatch_iff_lang` below). -/
def keyRegexMatch (k : List Char) : Bool :=
  match k with
  | [] => false
  | c :: rest => isWordStart c && rest.all isWordChar

/-- The language of the source regex `[a-zA-Z_]+[a-zA-Z0-9_]*` as written:
a nonempty block of `[a-zA-Z_]` followed by a block of `[a-zA-Z0-9_]`. -/
def keyRegexLang (k : List Char) : Prop :=
  ∃ a b, k = a ++ b ∧ a ≠ [] ∧ (∀ c ∈ a, isWordStart c = true) ∧
    (∀ c ∈ b, isWordChar c = true)

/-! ### Quote handling and escape-unescaping -/

/-- The quote-handling step of the parser, applied to the trimmed value:
if the first character is a single or double quote then the last character
must be identical or the line is discarded (`none`); on a match the value
becomes `value.mid(1, value.size() - 2)`, i.e. the value with its first
and last characters removed (for a one-character value, `mid(1, -1)`
yields the empty string). -/
def quoteStep (v : List Char) : Option (List Char) :=
  if qCharAt v 0 = singleQuote ∨ qCharAt v 0 = '"' then
    if qCharAt v 0 ≠ qCharAt v (v.length - 1) then none
    else some ((v.drop 1).dropLast)
  else some v

/-- `value.replace(QRegularExpression("\\\\(.)"), "\\1")`: scanning left to
right, each backslash together with the single character following it is
replaced by that character, non-overlapping; a trailing backslash with
nothing after it is not matched by `\\(.)` and stays. -/
def unescape : List Char → List Char
  | [] => []
  | x :: rest =>
    if x = '\\' then
      match rest with
      | [] => ['\\']
      | y :: rest2 => y :: unescape rest2
    else x :: unescape rest

/-! ### The release mapping (QMap<QString, QString>) -/

/-- The parse result mapping.  `QMap` stores unique keys; we model it as an
association list whose insert overwrites the entry of an equal key, which
agrees with `QMap` on lookup and on the key set — the only observations the
parser's callers make. -/
abbrev RMap : Type := List (List Char × List Char)

/-- `result[key] = value` on a `QMap`: overwrite the entry of an existing
equal key, otherwise add the entry. -/
def rmapInsert : RMap → List Char → List Char → RMap
  | [], k, v => [(k, v)]
  | (k0, v0) :: rest, k, v =>
    if k0 = k then (k, v) :: rest else (k0, v0) :: rmapInsert rest k v

/-- `QMap` key lookup, `none` when the key is absent. -/
def rmapLookup : RMap → List Char → Option (List Char)
  | [], _ => none
  | (k0, v0) :: rest, k => if k0 = k then some v0 else rmapLookup rest k

/-- `QMap::operator[]` read of a possibly missing key: the value when
present, the default-constructed empty string otherwise. -/
def rmapValueD (m : RMap) (k : List Char) : List Char :=
  (rmapLookup m k).getD []

/-! ### The parser -/

/-- One iteration of the `while (!in.atEnd())` loop of `parseReleaseFile`:
skip comment lines, split at the first `=`, trim the value, validate the
key, handle quoting, unescape, and store. -/
def processLine (res : RMap) (line : List Char) : RMap :=
  if startsWithHash line then res
  else
    let key := keySection line
    let value := qtrim (valueSection line)
    if keyRegexMatch key then
      match quoteStep value with
      | none => res
      | some v => rmapInsert res key (unescape v)
    else res

/-- `parseReleaseFile(filename)`.  The file is given as its list of lines
(`QTextStream::readLine`), or `none` when it cannot be opened, in which
case the result is the empty mapping. -/
def parseReleaseFile (file : Option (List (List Char))) : RMap :=
  match file with
  | none => []
  | some lines => lines.foldl processLine []

/-- The trimmed value of a line, as the parser computes it. -/
def trimmedValue (line : List Char) : List Char := qtrim (valueSection line)

/-! ### The metadata facade -/

/-- `AboutSettings::serial()`: if the serial file exists, its UTF-8 contents
trimmed; the empty string otherwise. -/
def serial (file : Option (List Char)) : List Char :=
  match file with
  | none => []
  | some content => qtrim content

/-- `AboutSettings::softwareVersion()`: the `VERSION` entry of the parsed
os-release file (empty when absent). -/
def softwareVersion (osReleaseFile : Option (List (List Char))) : List Char :=
  rmapValueD (parseReleaseFile osReleaseFile) ("VERSION".toList)

/-- `AboutSettings::adaptationVersion()`: the `VERSION_ID` entry of the
parsed hw-release file (empty when absent). -/
def adaptationVersion (hwReleaseFile : Option (List (List Char))) : List Char :=
  rmapValueD (parseReleaseFile hwReleaseFile) ("VERSION_ID".toList)

/-! ### The disk usage aggregator -/

/-- One record of the mount table, as delivered by `getmntent_r`: the
mountpoint (`mnt_dir`) and the device source (`mnt_fsname`). -/
structure MntEnt where
  mnt_dir : String
  mnt_fsname : String
deriving Repr, DecidableEq

/-- One row of the reported disk usage model (`QVariantMap` with the four
fields the code fills in). -/
structure DiskRow where
  storageType : String
  path : String
  available : Int
  total : Int
deriving Repr, DecidableEq

/-- `QMap<QString,QString>` insert-or-overwrite.  `QMap` stores unique keys
and iterates them in ascending key order; we model it as an association
list with overwrite-on-equal-key, which agrees with `QMap` on lookup and on
the key set.  The one place key *order* could show is the `foreach` over
`devices.keys()` in `diskUsageModel`, but its filter retains at most the
single candidate mountpoint `/home`, so the resulting path list is the same
whichever way the unique keys are enumerated. -/
def qmapInsertS (m : List (String × String)) (k v : String) :
    List (String × String) :=
  match m with
  | [] => [(k, v)]
  | (k0, v0) :: rest =>
    if k0 = k then (k, v) :: rest else (k0, v0) :: qmapInsertS rest k v

/-- `QMap<QString,QString>` key lookup, `none` when absent. -/
def qmapLookupS : List (String × String) → String → Option String
  | [], _ => none
  | (k0, v0) :: rest, k => if k = k0 then some v0 else qmapLookupS rest k

/-- The `devices` map of `diskUsageModel`: each mount-table record is
stored with `devices[entry.mnt_dir] = entry.mnt_fsname`, later records
overwriting earlier ones for the same mountpoint. -/
def buildDevices (table : List MntEnt) : List (String × String) :=
  table.foldl (fun m e => qmapInsertS m e.mnt_dir e.mnt_fsname) []

/-- The fixed candidate mountpoints (`candidates << "/home"`). -/
def candidates : List String := ["/home"]

/-- `devices["/"]` in the comparison of `diskUsageModel`: `operator[]` on
a non-const `QMap` default-constructs the empty string when `/` is not a
key (the entry it inserts is only ever read back as this same empty
string, so the mutation is observationally the `getD ""`). -/
def rootDevice (devices : List (String × String)) : String :=
  (qmapLookupS devices "/").getD ""

/-- The working path list of `diskUsageModel`: always `/` first, then every
mountpoint of the devices map (iterated in `QMap` key order) that is a
candidate and whose device source differs from that of `/`. -/
def diskUsagePaths (table : List MntEnt) : List String :=
  let devices := buildDevices table
  "/" :: (devices.map (fun p => p.1)).filter
    (fun mp => candidates.contains mp &&
      ((qmapLookupS devices mp).getD "" != rootDevice devices))

/-- `AboutSettings::diskUsageModel()`: one row per working path; the
storage type is `mass` when the working list has a single entry, else
`system` for `/` and `user` for every other path; available and total
bytes come from the external storage info provider, modelled by the
functions `availF` and `totalF`. -/
def diskUsageModel (table : List MntEnt) (availF totalF : String → Int) :
    List DiskRow :=
  let paths := diskUsagePaths table
  paths.map (fun p =>
    { storageType :=
        if paths.length = 1 then "mass"
        else if p = "/" then "system" else "user",
      path := p,
      available := availF p,
      total := totalF p })

/-! ### Helper lemmas about the parser -/

/-- A character of the class `[a-zA-Z_]` is also in `[a-zA-Z0-9_]`. -/
lemma isWordChar_of_isWordStart (c : Char) (h : isWordStart c = true) :
    isWordChar c = true := by
  simp only [isWordStart, isWordChar, Char.isAlphanum, Bool.or_eq_true,
    decide_eq_true_eq] at *
  rcases h with h | h
  · exact Or.inl (Or.inl h)
  · exact Or.inr h

/-- The executable key check decides exactly the language of the source
regex `[a-zA-Z_]+[a-zA-Z0-9_]*`. -/
lemma keyRegexMatch_iff_lang (k : List Char) :
    keyRegexMatch k = true ↔ keyRegexLang k := by
  constructor
  · intro h
    match k with
    | [] => simp [keyRegexMatch] at h
    | c :: rest =>
      simp only [keyRegexMatch, Bool.and_eq_true, List.all_eq_true] at h
      exact ⟨[c], rest, rfl, by simp, by simpa using h.1, h.2⟩
  · rintro ⟨a, b, rfl, hne, ha, hb⟩
    match a, hne with
    | c :: a2, _ =>
      simp only [List.cons_append, keyRegexMatch, Bool.and_eq_true,
        List.all_eq_true]
      refine ⟨ha c (by simp), ?_⟩
      intro x hx
      rcases List.mem_append.1 hx with hx | hx
      · exact isWordChar_of_isWordStart x (ha x (by simp [hx]))
      · exact hb x hx

/-- A line whose key passes the pattern cannot be a comment line: a comment
line's key starts with `#`, which is not in `[a-zA-Z_]`. -/
lemma not_hash_of_keyValid (line : List Char)
    (h : keyRegexMatch (keySection line) = true) :
    startsWithHash line = false := by
  cases line with
  | nil => rfl
  | cons c rest =>
    rcases eq_or_ne c '#' with rfl | hc
    · exfalso
      have hks : keySection ('#' :: rest) = '#' :: keySection rest := by
        simp [keySection]
      rw [hks] at h
      simp only [keyRegexMatch, Bool.and_eq_true] at h
      exact absurd h.1 (by decide)
    · simp [startsWithHash, hc]

/-- On a non-comment line with a valid key, `processLine` reduces to the
quote handling, unescaping and store of the trimmed value. -/
lemma processLine_eq (res : RMap) (line : List Char)
    (hk : keyRegexMatch (keySection line) = true) :
    processLine res line =
      match quoteStep (trimmedValue line) with
      | none => res
      | some v => rmapInsert res (keySection line) (unescape v) := by
  unfold processLine
  rw [not_hash_of_keyValid line hk]
  simp [hk, trimmedValue]

/-- An entry of `rmapInsert res k v` is an entry of `res` or has key `k`. -/
lemma mem_rmapInsert (m : RMap) (k v k1 v1 : List Char)
    (h : (k1, v1) ∈ rmapInsert m k v) : (k1, v1) ∈ m ∨ k1 = k := by
  induction m with
  | nil =>
    simp only [rmapInsert, List.mem_singleton, Prod.mk.injEq] at h
    exact Or.inr h.1
  | cons p rest ih =>
    obtain ⟨k0, v0⟩ := p
    simp only [rmapInsert] at h
    by_cases hk : k0 = k
    · rw [if_pos hk] at h
      rcases List.mem_cons.1 h with h1 | h1
      · exact Or.inr (congrArg Prod.fst h1)
      · exact Or.inl (List.mem_cons_of_mem _ h1)
    · rw [if_neg hk] at h
      rcases List.mem_cons.1 h with h1 | h1
      · exact Or.inl (h1 ▸ List.mem_cons_self _ _)
      · rcases ih h1 with h2 | h2
        · exact Or.inl (List.mem_cons_of_mem _ h2)
        · exact Or.inr h2

/-- An entry of `processLine res line` is an entry of `res` or has a key
that passes the pattern. -/
lemma mem_processLine (res : RMap) (line : List Char) (k v : List Char)
    (h : (k, v) ∈ processLine res line) :
    (k, v) ∈ res ∨ keyRegexMatch k = true := by
  unfold processLine at h
  by_cases hh : startsWithHash line = true
  · rw [if_pos hh] at h; exact Or.inl h
  · rw [if_neg hh] at h
    by_cases hk : keyRegexMatch (keySection line) = true
    · rw [if_pos hk] at h
      rcases hq : quoteStep (qtrim (valueSection line)) with _ | v2
      · rw [hq] at h; exact Or.inl h
      · rw [hq] at h
        rcases mem_rmapInsert _ _ _ _ _ h with h1 | h1
        · exact Or.inl h1
        · exact Or.inr (h1 ▸ hk)
    · rw [if_neg hk] at h; exact Or.inl h

/-- An entry produced by folding `processLine` over a list of lines is an
entry of the start mapping or has a key that passes the pattern. -/
lemma mem_foldl_processLine (lines : List (List Char)) (res : RMap)
    (k v : List Char) (h : (k, v) ∈ lines.foldl processLine res) :
    (k, v) ∈ res ∨ keyRegexMatch k = true := by
  induction lines generalizing res with
  | nil => exact Or.inl h
  | cons l ls ih =>
    rcases ih (processLine res l) h with h1 | h1
    · exact mem_processLine res l k v h1
    · exact Or.inr h1

/-- The unescape scan replaces a leading backslash pair by the escaped
character. -/
lemma unescape_backslash (c : Char) (b : List Char) :
    unescape ('\\' :: c :: b) = c :: unescape b := by
  rfl

/-- The unescape scan copies a non-backslash character unchanged. -/
lemma unescape_cons_of_ne (x : Char) (rest : List Char) (hx : x ≠ '\\') :
    unescape (x :: rest) = x :: unescape rest := by
  conv_lhs => rw [unescape.eq_def]
  dsimp only
  rw [if_neg hx]

/-! ### Claim theorems about the parser -/

/-- C1: every input line whose key passes the identifier pattern and whose
trimmed value is empty — `KEY=` as well as a bare `KEY` line without `=` —
is parsed successfully and stored with the empty string as its value (the
empty value is not a quote character, so quote handling passes it through
and unescaping leaves it empty); in particular a file containing `EMPTY=`
parses to the mapping `EMPTY ↦ ""`. -/
theorem empty_value_stored (res : RMap) (line : List Char)
    (hk : keyRegexMatch (keySection line) = true)
    (hv : trimmedValue line = []) :
    processLine res line = rmapInsert res (keySection line) [] ∧
    parseReleaseFile (some ["EMPTY=".toList]) = [("EMPTY".toList, [])] := by
  refine ⟨?_, by decide⟩
  rw [processLine_eq res line hk, hv]
  have hq : quoteStep [] = some [] := by decide
  rw [hq]
  rfl

/-- Witness for C1 at the line `EMPTY=` starting from the empty mapping. -/
theorem empty_value_stored_witness :
    processLine [] ("EMPTY=".toList) = [("EMPTY".toList, [])] := by
  rw [(empty_value_stored [] ("EMPTY=".toList) (by decide) (by decide)).1]
  decide

/-- C2 counterexample: the claim says a value consisting of a single quote
character alone is rejected as a quoting error and absent from the mapping;
on the code the line `KEY="` (trimmed value is the one-character string
`"`) has an identical first and last character, so it passes the quote
check, `mid(1, -1)` strips it to the empty string, and `KEY` is stored with
the empty value — present, not absent. -/
theorem single_quote_alone_not_rejected :
    rmapLookup (parseReleaseFile (some ["KEY=\"".toList])) ("KEY".toList) =
      some [] := by decide

/-- C2 (amended): for every line with a valid key whose trimmed value
begins with a single or double quote: if the last character differs from
the first, the line is discarded as a quoting error and parsing continues;
if it is the identical quote character, the enclosing first and last
characters are stripped (and the result unescaped and stored).  A value
consisting of a single quote character alone is *accepted*: its first and
last character coincide, stripping yields the empty value, and the key is
stored with the empty string; parse does not crash. -/
theorem quote_handling (res : RMap) (line : List Char)
    (hk : keyRegexMatch (keySection line) = true)
    (hq : qCharAt (trimmedValue line) 0 = singleQuote ∨
      qCharAt (trimmedValue line) 0 = '"') :
    (qCharAt (trimmedValue line) 0 ≠
        qCharAt (trimmedValue line) ((trimmedValue line).length - 1) →
      processLine res line = res) ∧
    (qCharAt (trimmedValue line) 0 =
        qCharAt (trimmedValue line) ((trimmedValue line).length - 1) →
      processLine res line =
        rmapInsert res (keySection line)
          (unescape (((trimmedValue line).drop 1).dropLast))) ∧
    (trimmedValue line = [qCharAt (trimmedValue line) 0] →
      processLine res line = rmapInsert res (keySection line) []) := by
  have hpe := processLine_eq res line hk
  refine ⟨?_, ?_, ?_⟩
  · intro hne
    rw [hpe]
    have : quoteStep (trimmedValue line) = none := by
      rw [quoteStep, if_pos hq, if_pos hne]
    rw [this]
  · intro heq
    rw [hpe]
    have : quoteStep (trimmedValue line) =
        some (((trimmedValue line).drop 1).dropLast) := by
      rw [quoteStep, if_pos hq, if_neg (by simpa using heq)]
    rw [this]
  · intro hone
    rw [hpe]
    have hlast : qCharAt (trimmedValue line) ((trimmedValue line).length - 1) =
        qCharAt (trimmedValue line) 0 := by rw [hone]; rfl
    have hstrip : ((trimmedValue line).drop 1).dropLast = [] := by
      rw [hone]; rfl
    have : quoteStep (trimmedValue line) = some [] := by
      rw [quoteStep, if_pos hq, if_neg (by simp [hlast]), hstrip]
    rw [this]
    rfl

/-- Witness for C2 (amended) at the line `K="a b"`: matched double quotes
are stripped and the value `a b` is stored. -/
theorem quote_handling_witness :
    processLine [] ("K=\"a b\"".toList) = [("K".toList, "a b".toList)] := by
  rw [(quote_handling [] ("K=\"a b\"".toList) (by decide)
    (Or.inr (by decide))).2.1 (by decide)]
  decide

/-- C5 (evaluation at the failing input): the value-trimming step of the
code is `QString::trimmed()`, which removes leading as well as trailing
whitespace; at the line `KEY= x` the stored value is `x`, not ` x` as the
claim (and the code's own comment, which says "Remove trailing whitespace")
would have it. -/
theorem value_trim_removes_leading_whitespace :
    qtrim (" x".toList) = "x".toList ∧
    parseReleaseFile (some ["KEY= x".toList]) = [("KEY".toList, "x".toList)] := by
  constructor <;> decide

/-- C7: no core operation has a fatal error path: parse of a file that
cannot be opened returns the empty mapping, `serial()` returns the empty
string when its fixed file does not exist, and `softwareVersion()` /
`adaptationVersion()` return the empty string when `VERSION` /
`VERSION_ID` is absent from the parsed mapping. -/
theorem no_fatal_error_path :
    parseReleaseFile none = [] ∧
    serial none = [] ∧
    (∀ file, rmapLookup (parseReleaseFile file) ("VERSION".toList) = none →
      softwareVersion file = []) ∧
    (∀ file, rmapLookup (parseReleaseFile file) ("VERSION_ID".toList) = none →
      adaptationVersion file = []) := by
  refine ⟨rfl, rfl, ?_, ?_⟩
  · intro file h
    simp only [softwareVersion, rmapValueD, h, Option.getD_none]
  · intro file h
    simp only [adaptationVersion, rmapValueD, h, Option.getD_none]

/-- Witness for C7: a file holding only `FOO=1` has no `VERSION` and no
`VERSION_ID` entry, so both accessors return the empty string. -/
theorem no_fatal_error_path_witness :
    softwareVersion (some ["FOO=1".toList]) = [] ∧
    adaptationVersion (some ["FOO=1".toList]) = [] :=
  ⟨no_fatal_error_path.2.2.1 (some ["FOO=1".toList]) (by decide),
   no_fatal_error_path.2.2.2 (some ["FOO=1".toList]) (by decide)⟩

/-- C8: a line whose key does not wholly match `[a-zA-Z_][a-zA-Z0-9_]*` is
discarded (the mapping is unchanged) and parsing continues; consequently
the returned mapping never contains a key that fails the identifier rule. -/
theorem invalid_key_discarded :
    (∀ (res : RMap) (line : List Char),
      keyRegexMatch (keySection line) = false → processLine res line = res) ∧
    (∀ (file : Option (List (List Char))) (k v : List Char),
      (k, v) ∈ parseReleaseFile file → keyRegexMatch k = true) := by
  constructor
  · intro res line h
    unfold processLine
    by_cases hh : startsWithHash line = true
    · rw [if_pos hh]
    · rw [if_neg hh]
      simp [h]
  · intro file k v h
    match file with
    | none => simp [parseReleaseFile] at h
    | some lines =>
      rcases mem_foldl_processLine lines [] k v h with h1 | h1
      · simp at h1
      · exact h1

/-- Witness for C8: the line `BAD-KEY=x` (key contains `-`) leaves the
mapping unchanged, and the key `A` of the entry parsed from `A=1` passes
the pattern. -/
theorem invalid_key_discarded_witness :
    processLine [] ("BAD-KEY=x".toList) = [] ∧
    keyRegexMatch ("A".toList) = true :=
  ⟨invalid_key_discarded.1 [] ("BAD-KEY=x".toList) (by decide),
   invalid_key_discarded.2 (some ["A=1".toList]) ("A".toList) ("1".toList)
     (by decide)⟩

/-- C9: after quote handling, every backslash followed by exactly one
character is replaced by that character, once, left to right and
non-overlapping: the scan copies any backslash-free prefix unchanged,
replaces the first `\X` by `X`, and continues after it; in particular
`KEY=a\"b` parses to the value `a"b`. -/
theorem escape_unescaping :
    (∀ (a : List Char) (c : Char) (b : List Char), (∀ x ∈ a, x ≠ '\\') →
      unescape (a ++ '\\' :: c :: b) = a ++ c :: unescape b) ∧
    parseReleaseFile (some ["KEY=a\\\"b".toList]) =
      [("KEY".toList, "a\"b".toList)] := by
  refine ⟨?_, by decide⟩
  intro a c b ha
  induction a with
  | nil => simpa using unescape_backslash c b
  | cons x xs ih =>
    have hx : x ≠ '\\' := ha x (List.mem_cons_self _ _)
    have hxs : ∀ y ∈ xs, y ≠ '\\' := fun y hy => ha y (List.mem_cons_of_mem _ hy)
    rw [List.cons_append, unescape_cons_of_ne x _ hx, ih hxs, List.cons_append]

/-- Witness for C9: in `xy\Qz` the prefix `xy` is backslash-free, so the
scan replaces `\Q` by `Q` and continues on `z`. -/
theorem escape_unescaping_witness :
    unescape ("xy".toList ++ '\\' :: 'Q' :: "z".toList) =
      "xy".toList ++ 'Q' :: unescape ("z".toList) :=
  escape_unescaping.1 ("xy".toList) 'Q' ("z".toList) (by decide)

/-! ### Helper lemmas about the devices map -/

/-- A key of `qmapInsertS m k v` is a key of `m` or is `k`. -/
lemma mem_keys_qmapInsertS (m : List (String × String)) (k v a : String)
    (h : a ∈ (qmapInsertS m k v).map (fun p => p.1)) :
    a ∈ m.map (fun p => p.1) ∨ a = k := by
  induction m with
  | nil =>
    simp only [qmapInsertS, List.map_cons, List.map_nil, List.mem_singleton] at h
    exact Or.inr h
  | cons p rest ih =>
    obtain ⟨k0, v0⟩ := p
    simp only [qmapInsertS] at h
    by_cases hk : k0 = k
    · rw [if_pos hk] at h
      simp only [List.map_cons, List.mem_cons] at h
      rcases h with h1 | h1
      · exact Or.inr h1
      · exact Or.inl (by simp only [List.map_cons, List.mem_cons]; exact Or.inr h1)
    · rw [if_neg hk] at h
      simp only [List.map_cons, List.mem_cons] at h
      rcases h with h1 | h1
      · exact Or.inl (by simp [h1])
      · rcases ih h1 with h2 | h2
        · exact Or.inl (by simp only [List.map_cons, List.mem_cons]; exact Or.inr h2)
        · exact Or.inr h2

/-- `qmapInsertS` keeps the keys free of duplicates. -/
lemma nodup_keys_qmapInsertS (m : List (String × String)) (k v : String)
    (h : (m.map (fun p => p.1)).Nodup) :
    ((qmapInsertS m k v).map (fun p => p.1)).Nodup := by
  induction m with
  | nil => simp [qmapInsertS]
  | cons p rest ih =>
    obtain ⟨k0, v0⟩ := p
    simp only [List.map_cons, List.nodup_cons] at h
    simp only [qmapInsertS]
    by_cases hk : k0 = k
    · rw [if_pos hk]
      simp only [List.map_cons, List.nodup_cons]
      exact ⟨hk ▸ h.1, h.2⟩
    · rw [if_neg hk]
      simp only [List.map_cons, List.nodup_cons]
      refine ⟨?_, ih h.2⟩
      intro hmem
      rcases mem_keys_qmapInsertS rest k v k0 hmem with h1 | h1
      · exact h.1 h1
      · exact hk h1

/-- A key of the devices map built by folding from `m` is a key of `m` or
the mountpoint of some mount-table record. -/
lemma mem_keys_foldl_devices (table : List MntEnt)
    (m : List (String × String)) (a : String)
    (h : a ∈ (table.foldl (fun acc e => qmapInsertS acc e.mnt_dir e.mnt_fsname)
        m).map (fun p => p.1)) :
    a ∈ m.map (fun p => p.1) ∨ ∃ e ∈ table, e.mnt_dir = a := by
  induction table generalizing m with
  | nil => exact Or.inl h
  | cons e es ih =>
    rcases ih (qmapInsertS m e.mnt_dir e.mnt_fsname) h with h1 | h1
    · rcases mem_keys_qmapInsertS m e.mnt_dir e.mnt_fsname a h1 with h2 | h2
      · exact Or.inl h2
      · exact Or.inr ⟨e, by simp, h2.symm⟩
    · obtain ⟨e2, he2, hd⟩ := h1
      exact Or.inr ⟨e2, by simp [he2], hd⟩

/-- Every key of the devices map is the mountpoint of some record of the
mount table. -/
lemma mem_keys_buildDevices (table : List MntEnt) (a : String)
    (h : a ∈ (buildDevices table).map (fun p => p.1)) :
    ∃ e ∈ table, e.mnt_dir = a := by
  rcases mem_keys_foldl_devices table [] a h with h1 | h1
  · simp at h1
  · exact h1

/-- The keys of the devices map built by folding from a duplicate-free `m`
stay duplicate-free. -/
lemma nodup_keys_foldl_devices (table : List MntEnt)
    (m : List (String × String)) (h : (m.map (fun p => p.1)).Nodup) :
    ((table.foldl (fun acc e => qmapInsertS acc e.mnt_dir e.mnt_fsname)
        m).map (fun p => p.1)).Nodup := by
  induction table generalizing m with
  | nil => exact h
  | cons e es ih =>
    exact ih (qmapInsertS m e.mnt_dir e.mnt_fsname)
      (nodup_keys_qmapInsertS m e.mnt_dir e.mnt_fsname h)

/-- The devices map has no duplicate keys (each mountpoint appears once,
later mount-table records having overwritten earlier ones). -/
lemma buildDevices_keys_nodup (table : List MntEnt) :
    ((buildDevices table).map (fun p => p.1)).Nodup :=
  nodup_keys_foldl_devices table [] (by simp)

/-- The candidate list is the singleton `/home`. -/
lemma contains_candidates (x : String) :
    candidates.contains x = true ↔ x = "/home" := by
  constructor
  · intro h
    have := List.mem_of_elem_eq_true h
    simpa [candidates] using this
  · rintro rfl
    decide

/-- The left conjunct of a true Boolean conjunction. -/
lemma and_true_left {a b : Bool} (h : (a && b) = true) : a = true := by
  simp only [Bool.and_eq_true] at h
  exact h.1

/-- A duplicate-free list whose members all equal `a` and which contains
`a` is the singleton `[a]`. -/
lemma eq_singleton_of_nodup {α : Type} (l : List α) (a : α) (hn : l.Nodup)
    (hall : ∀ x ∈ l, x = a) (hm : a ∈ l) : l = [a] := by
  cases l with
  | nil => cases hm
  | cons x xs =>
    have hx : x = a := hall x (List.mem_cons_self _ _)
    subst hx
    cases xs with
    | nil => rfl
    | cons y ys =>
      exfalso
      have hy : y = x := hall y (by simp)
      rw [List.nodup_cons] at hn
      exact hn.1 (by simp [hy])

/-- The working path list, unfolded: `/` followed by the filtered keys of
the devices map. -/
lemma diskUsagePaths_def (table : List MntEnt) :
    diskUsagePaths table =
      "/" :: ((buildDevices table).map (fun p => p.1)).filter
        (fun mp => candidates.contains mp &&
          ((qmapLookupS (buildDevices table) mp).getD "" !=
            rootDevice (buildDevices table))) := rfl

/-! ### Claim theorems about the disk usage aggregator -/

/-- C3: a candidate mountpoint is in the working path list iff it appears
as a key of the mountpoint-to-device mapping built from the mount table
and its device source differs from the device source of `/`; a candidate
sharing the root device is excluded, and an included candidate yields
exactly the two rows `{system, /}` and `{user, candidate}`. -/
theorem candidate_inclusion (table : List MntEnt)
    (availF totalF : String → Int) (c : String) (hc : c ∈ candidates) :
    (c ∈ diskUsagePaths table ↔
      c ∈ (buildDevices table).map (fun p => p.1) ∧
        (qmapLookupS (buildDevices table) c).getD "" ≠
          rootDevice (buildDevices table)) ∧
    (c ∈ diskUsagePaths table →
      diskUsageModel table availF totalF =
        [⟨"system", "/", availF "/", totalF "/"⟩,
         ⟨"user", c, availF c, totalF c⟩]) := by
  have hc8 : c = "/home" := by simpa [candidates] using hc
  subst hc8
  constructor
  · rw [diskUsagePaths_def]
    simp only [List.mem_cons, List.mem_filter, Bool.and_eq_true, bne_iff_ne,
      ne_eq]
    constructor
    · rintro (h | h)
      · exact absurd h (by decide)
      · exact ⟨h.1, h.2.2⟩
    · rintro ⟨h1, h2⟩
      exact Or.inr ⟨h1, by decide, h2⟩
  · intro hmem
    have hmf : "/home" ∈ ((buildDevices table).map (fun p => p.1)).filter
        (fun mp => candidates.contains mp &&
          ((qmapLookupS (buildDevices table) mp).getD "" !=
            rootDevice (buildDevices table))) := by
      rw [diskUsagePaths_def] at hmem
      rcases List.mem_cons.1 hmem with h | h
      · exact absurd h (by decide)
      · exact h
    have hfil : ((buildDevices table).map (fun p => p.1)).filter
        (fun mp => candidates.contains mp &&
          ((qmapLookupS (buildDevices table) mp).getD "" !=
            rootDevice (buildDevices table))) = ["/home"] := by
      apply eq_singleton_of_nodup _ _
        (List.Nodup.sublist (List.filter_sublist _) (buildDevices_keys_nodup table))
        _ hmf
      intro x hx
      have hcond := (List.mem_filter.1 hx).2
      exact (contains_candidates x).1 (and_true_left hcond)
    have hp : diskUsagePaths table = ["/", "/home"] := by
      rw [diskUsagePaths_def, hfil]
    simp only [diskUsageModel, hp]
    simp

/-- Witness for C3: `/home` mounted on a device distinct from the root
device yields the rows `{system, /}` and `{user, /home}`. -/
theorem candidate_inclusion_witness :
    diskUsageModel [⟨"/", "/dev/root"⟩, ⟨"/home", "/dev/home"⟩]
      (fun _ => 0) (fun _ => 0) =
      [⟨"system", "/", 0, 0⟩, ⟨"user", "/home", 0, 0⟩] := by
  have h := (candidate_inclusion [⟨"/", "/dev/root"⟩, ⟨"/home", "/dev/home"⟩]
    (fun _ => 0) (fun _ => 0) "/home" (by decide)).2 (by decide)
  simpa using h

/-- C4: the storage type per path: when the working path list has exactly
one entry (only `/`), the single row is `mass`; otherwise the row of `/`
is `system` and every other row is `user`. -/
theorem storage_type_assignment (table : List MntEnt)
    (availF totalF : String → Int) :
    ((diskUsagePaths table).length = 1 →
      diskUsageModel table availF totalF =
        [⟨"mass", "/", availF "/", totalF "/"⟩]) ∧
    (∀ r ∈ diskUsageModel table availF totalF,
      r.storageType =
        if (diskUsagePaths table).length = 1 then "mass"
        else if r.path = "/" then "system" else "user") := by
  constructor
  · intro hlen
    obtain ⟨t, ht⟩ : ∃ t, diskUsagePaths table = "/" :: t :=
      ⟨_, diskUsagePaths_def table⟩
    rw [ht] at hlen
    simp only [List.length_cons] at hlen
    have htn : t = [] := List.length_eq_zero.1 (by omega)
    subst htn
    simp only [diskUsageModel, ht]
    simp
  · intro r hr
    simp only [diskUsageModel, List.mem_map] at hr
    obtain ⟨p, hp, rfl⟩ := hr
    rfl

/-- Witness for C4: an empty mount table leaves only `/`, reported as one
`mass` row. -/
theorem storage_type_assignment_witness :
    diskUsageModel [] (fun _ => 0) (fun _ => 0) = [⟨"mass", "/", 0, 0⟩] := by
  have h := (storage_type_assignment [] (fun _ => 0) (fun _ => 0)).1 (by decide)
  simpa using h

/-- C6: the model has exactly one row per working path in working-list
order, `/` is always the first path and appears exactly once, there are no
duplicate paths, and every further path is a candidate mountpoint found in
the mount table (with the single configured candidate `/home`, at most one
such row exists, so its ordering is that of discovery trivially). -/
theorem rows_shape (table : List MntEnt) (availF totalF : String → Int) :
    ((diskUsageModel table availF totalF).map (fun r => r.path) =
      diskUsagePaths table) ∧
    (diskUsagePaths table).head? = some "/" ∧
    (diskUsagePaths table).Nodup ∧
    (∀ p ∈ (diskUsagePaths table).tail,
      p ∈ candidates ∧ ∃ e ∈ table, e.mnt_dir = p) := by
  refine ⟨?_, ?_, ?_, ?_⟩
  · simp only [diskUsageModel, List.map_map]
    show List.map (fun p : String => p) (diskUsagePaths table) =
      diskUsagePaths table
    simp
  · rw [diskUsagePaths_def]
    rfl
  · rw [diskUsagePaths_def, List.nodup_cons]
    constructor
    · intro hmem
      have hcond := (List.mem_filter.1 hmem).2
      have := (contains_candidates _).1 (and_true_left hcond)
      exact absurd this (by decide)
    · exact List.Nodup.sublist (List.filter_sublist _)
        (buildDevices_keys_nodup table)
  · intro p hp
    rw [diskUsagePaths_def] at hp
    simp only [List.tail_cons] at hp
    have hmf := List.mem_filter.1 hp
    have hcp : p = "/home" :=
      (contains_candidates p).1 (and_true_left hmf.2)
    exact ⟨by simp [candidates, hcp], mem_keys_buildDevices table p hmf.1⟩

/-- Witness for C6: with `/home` on its own device, the single tail path
`/home` is a candidate and appears in the mount table. -/
theorem rows_shape_witness :
    "/home" ∈ candidates ∧
    ∃ e ∈ [MntEnt.mk "/" "/dev/root", MntEnt.mk "/home" "/dev/home"],
      e.mnt_dir = "/home" :=
  (rows_shape [⟨"/", "/dev/root"⟩, ⟨"/home", "/dev/home"⟩]
    (fun _ => 0) (fun _ => 0)).2.2.2 "/home" (by decide)

/-- C10: when `/` is not a key of the mountpoint-to-device mapping, its
device source is taken to be the empty string (the default-constructed
value of `QMap::operator[]`), so a candidate mountpoint present in the
table with a non-empty device source is included, alongside the
always-emitted row for `/` itself. -/
theorem missing_root_device (table : List MntEnt) (c : String)
    (hroot : qmapLookupS (buildDevices table) "/" = none)
    (hc : c ∈ candidates)
    (hmem : c ∈ (buildDevices table).map (fun p => p.1))
    (hne : (qmapLookupS (buildDevices table) c).getD "" ≠ "") :
    c ∈ diskUsagePaths table ∧ (diskUsagePaths table).head? = some "/" := by
  have hc8 : c = "/home" := by simpa [candidates] using hc
  subst hc8
  have hrd : rootDevice (buildDevices table) = "" := by
    rw [rootDevice, hroot]
    rfl
  constructor
  · rw [diskUsagePaths_def]
    refine List.mem_cons_of_mem _ (List.mem_filter.2 ⟨hmem, ?_⟩)
    rw [Bool.and_eq_true]
    exact ⟨by decide, bne_iff_ne.2 (hrd ▸ hne)⟩
  · rw [diskUsagePaths_def]
    rfl

/-- Witness for C10: a mount table listing only `/home` (no entry for `/`)
still reports `/` first and includes `/home`. -/
theorem missing_root_device_witness :
    "/home" ∈ diskUsagePaths [⟨"/home", "/dev/mmc"⟩] ∧
    (diskUsagePaths [⟨"/home", "/dev/mmc"⟩]).head? = some "/" :=
  missing_root_device [⟨"/home", "/dev/mmc"⟩] "/home" (by decide) (by decide)
    (by decide) (by decide)

/-! ### Sanity checks on concrete inputs -/

example :
    rmapLookup (parseReleaseFile (some ["#comment".toList,
      "VERSION=\"1.2.3\"".toList, "BAD-KEY=x".toList, "EMPTY=".toList]))
      ("VERSION".toList) = some ("1.2.3".toList) ∧
    rmapLookup (parseReleaseFile (some ["#comment".toList,
      "VERSION=\"1.2.3\"".toList, "BAD-KEY=x".toList, "EMPTY=".toList]))
      ("EMPTY".toList) = some [] ∧
    rmapLookup (parseReleaseFile (some ["#comment".toList,
      "VERSION=\"1.2.3\"".toList, "BAD-KEY=x".toList, "EMPTY=".toList]))
      ("BAD-KEY".toList) = none := by decide
example : parseReleaseFile (some ["EMPTY=".toList]) = [("EMPTY".toList, [])] := by decide
example : parseReleaseFile (some ["KEY=\"a b\"".toList]) = [("KEY".toList, "a b".toList)] := by decide
example : parseReleaseFile (some ["KEY=\"".toList]) = [("KEY".toList, [])] := by decide
example : parseReleaseFile (some ["BAD-KEY=x".toList]) = [] := by decide
example : parseReleaseFile (some ["KEY=a\\\"b".toList]) = [("KEY".toList, "a\"b".toList)] := by decide
example : parseReleaseFile (some ["KEY= x".toList]) = [("KEY".toList, "x".toList)] := by decide
example :
    diskUsageModel [⟨"/", "/dev/root"⟩, ⟨"/home", "/dev/home"⟩]
      (fun _ => 0) (fun _ => 0) =
    [⟨"system", "/", 0, 0⟩, ⟨"user", "/home", 0, 0⟩] := by decide
example :
    diskUsageModel [⟨"/", "/dev/root"⟩, ⟨"/home", "/dev/root"⟩]
      (fun _ => 0) (fun _ => 0) =
    [⟨"mass", "/", 0, 0⟩] := by decide
example :
    diskUsageModel [⟨"/home", "/dev/home"⟩] (fun _ => 0) (fun _ => 0) =
    [⟨"system", "/", 0, 0⟩, ⟨"user", "/home", 0, 0⟩] := by decide
